import Mathlib

/-!
Shallow embedding of the transaction-construction core of the mobilecoin
wallet daemon, covering:

* `transaction/core/src/range_proofs/mod.rs`: `resize_slice_to_pow2`,
  `generate_range_proofs`, `check_range_proofs`;
* `mobilecoind/src/conversions.rs`: the wire encode/decode conversions for
  `UnspentTxOut`, `Outlay` and `TxProposal`.

Machine integers (`usize`, `u64`, both 64-bit here) are modelled as `Nat`
with explicit `2 ^ 64` bounds where overflow matters.  A Rust panic (an
out-of-bounds slice index) is modelled as `Option.none` wrapped around the
function's result; a recoverable `Err` is `Except.error`.
-/

/-- Error type of the range-proof module (`range_proofs/error.rs`):
`ResizeError` is the padding-overflow case of `resize_slice_to_pow2`,
the other two wrap the bulletproofs crate's proving/verification errors. -/
inductive RangeProofError where
  | ResizeError
  | ProvingError
  | VerificationError
deriving DecidableEq, Repr

/-- One step chain of `usize::checked_next_power_of_two`: starting from the
power `p`, keep doubling (at most `fuel` times) until the candidate is at
least `len`; `none` when the doubling chain is exhausted. -/
def findPow2 (len : Nat) : Nat → Nat → Option Nat
  | _, 0 => none
  | p, fuel + 1 => if len ≤ p then some p else findPow2 len (2 * p) fuel

/-- `usize::checked_next_power_of_two` on a 64-bit platform: the least power
of two that is at least `len`, or `none` when that power would be `2 ^ 64`,
which does not fit in `usize`.  The candidate powers are
`2 ^ 0, …, 2 ^ 63`, i.e. exactly the powers of two representable in a
64-bit `usize`. -/
def checked_next_power_of_two (len : Nat) : Option Nat :=
  findPow2 len 1 64

/-- `resize_slice_to_pow2` from `range_proofs/mod.rs`: extend the slice with
copies of its last element until its length is the next power of two.
`none` models the Rust panic on the out-of-bounds index
`slice[slice.len() - 1]` taken when the slice is empty;
`some (Except.error .ResizeError)` is the checked-overflow branch. -/
def resize_slice_to_pow2 {α : Type} (slice : List α) :
    Option (Except RangeProofError (List α)) :=
  match checked_next_power_of_two slice.length with
  | some next_power_of_two =>
    match slice.getLast? with
    | some last =>
      some (Except.ok (slice ++ List.replicate (next_power_of_two - slice.length) last))
    | none => none
  | none => some (Except.error RangeProofError.ResizeError)

/-- `q` is the smallest power of two that is at least `n`. -/
def IsNextPow2 (n q : Nat) : Prop :=
  (∃ k, q = 2 ^ k) ∧ n ≤ q ∧ ∀ m k, m = 2 ^ k → n ≤ m → q ≤ m

theorem findPow2_sound (len : Nat) :
    ∀ fuel a q, (∀ k, 2 ^ k < 2 ^ a → 2 ^ k < len) →
      findPow2 len (2 ^ a) fuel = some q →
      (∃ i, i < fuel ∧ q = 2 ^ (a + i)) ∧ IsNextPow2 len q := by
  intro fuel
  induction fuel with
  | zero => intro a q _ h; simp [findPow2] at h
  | succ n ih =>
    intro a q hinv h
    rw [findPow2] at h
    by_cases hle : len ≤ 2 ^ a
    · simp only [hle, if_true, Option.some.injEq] at h
      subst h
      refine ⟨⟨0, by omega, by simp⟩, ⟨a, rfl⟩, hle, ?_⟩
      intro m k hm hlenm
      by_contra hc
      push_neg at hc
      subst hm
      exact absurd (hinv k hc) (by omega)
    · simp only [hle, if_false] at h
      have h2 : (2 : Nat) * 2 ^ a = 2 ^ (a + 1) := by ring
      rw [h2] at h
      have hinv2 : ∀ k, 2 ^ k < 2 ^ (a + 1) → 2 ^ k < len := by
        intro k hk
        have hka : k ≤ a := by
          by_contra hc
          push_neg at hc
          have hge2 : 2 ^ (a + 1) ≤ 2 ^ k := Nat.pow_le_pow_right (by omega) hc
          omega
        rcases Nat.lt_or_ge (2 ^ k) (2 ^ a) with hlt | hge
        · exact hinv k hlt
        · have heq : 2 ^ k = 2 ^ a :=
            le_antisymm (Nat.pow_le_pow_right (by omega) hka) hge
          omega
      obtain ⟨⟨i, hi, hq⟩, hnp⟩ := ih (a + 1) q hinv2 h
      exact ⟨⟨i + 1, by omega, by rw [hq]; ring_nf⟩, hnp⟩

theorem findPow2_complete (len : Nat) :
    ∀ fuel a, len ≤ 2 ^ (a + fuel) →
      ∃ q, findPow2 len (2 ^ a) (fuel + 1) = some q := by
  intro fuel
  induction fuel with
  | zero =>
    intro a h
    simp only [Nat.add_zero] at h
    exact ⟨2 ^ a, by simp [findPow2, h]⟩
  | succ n ih =>
    intro a h
    rw [findPow2]
    by_cases hle : len ≤ 2 ^ a
    · exact ⟨2 ^ a, by simp [hle]⟩
    · simp only [hle, if_false]
      have h2 : (2 : Nat) * 2 ^ a = 2 ^ (a + 1) := by ring
      rw [h2]
      have harr : a + 1 + n = a + (n + 1) := by omega
      refine ih (a + 1) ?_
      rw [harr]
      exact h

theorem findPow2_none (len : Nat) :
    ∀ fuel a, (∀ i, i < fuel → 2 ^ (a + i) < len) →
      findPow2 len (2 ^ a) fuel = none := by
  intro fuel
  induction fuel with
  | zero => intro a _; simp [findPow2]
  | succ n ih =>
    intro a h
    rw [findPow2]
    have h0 : 2 ^ a < len := by have := h 0 (by omega); simpa using this
    simp only [show ¬ len ≤ 2 ^ a by omega, if_false]
    have h2 : (2 : Nat) * 2 ^ a = 2 ^ (a + 1) := by ring
    rw [h2]
    exact ih (a + 1) (fun i hi => by
      have := h (i + 1) (by omega)
      have harr : a + 1 + i = a + (i + 1) := by omega
      rw [harr]; exact this)

theorem checked_next_power_of_two_sound {len q : Nat}
    (h : checked_next_power_of_two len = some q) :
    IsNextPow2 len q ∧ q ≤ 2 ^ 63 := by
  have h1 : findPow2 len (2 ^ 0) 64 = some q := by simpa [checked_next_power_of_two] using h
  have hinv : ∀ k, 2 ^ k < 2 ^ 0 → 2 ^ k < len := by
    intro k hk
    exact absurd hk (by simp [Nat.one_le_two_pow])
  obtain ⟨⟨i, hi, hq⟩, hnp⟩ := findPow2_sound len 64 0 q hinv h1
  refine ⟨hnp, ?_⟩
  rw [hq]
  exact Nat.pow_le_pow_right (by omega) (by omega)

theorem checked_next_power_of_two_some {len : Nat} (h : len ≤ 2 ^ 63) :
    ∃ q, checked_next_power_of_two len = some q := by
  have := findPow2_complete len 63 0 (by simpa using h)
  simpa [checked_next_power_of_two] using this

theorem checked_next_power_of_two_none {len : Nat} (h : 2 ^ 63 < len) :
    checked_next_power_of_two len = none := by
  have := findPow2_none len 64 0 (fun i hi => by
    calc 2 ^ (0 + i) ≤ 2 ^ 63 := Nat.pow_le_pow_right (by omega) (by omega)
    _ < len := h)
  simpa [checked_next_power_of_two] using this

theorem checked_next_power_of_two_of_pow2 {k : Nat} (hk : k ≤ 63) :
    checked_next_power_of_two (2 ^ k) = some (2 ^ k) := by
  obtain ⟨q, hq⟩ := checked_next_power_of_two_some
    (Nat.pow_le_pow_right (by omega) hk)
  obtain ⟨⟨⟨j, hj⟩, hle, hmin⟩, _⟩ := checked_next_power_of_two_sound hq
  have hql : q ≤ 2 ^ k := hmin (2 ^ k) k rfl le_rfl
  have : q = 2 ^ k := le_antisymm hql hle
  rw [this] at hq
  exact hq

theorem resize_ok {α : Type} (l : List α) (h1 : l ≠ []) {q : Nat}
    (hq : checked_next_power_of_two l.length = some q) :
    resize_slice_to_pow2 l =
      some (Except.ok (l ++ List.replicate (q - l.length) (l.getLast h1))) := by
  rw [resize_slice_to_pow2, hq, List.getLast?_eq_getLast l h1]

theorem resize_ok_shape {α : Type} {l r : List α}
    (h : resize_slice_to_pow2 l = some (Except.ok r)) :
    ∃ q h1, checked_next_power_of_two l.length = some q ∧
      r = l ++ List.replicate (q - l.length) (l.getLast h1) ∧
      IsNextPow2 l.length r.length ∧ r.length = q ∧ q ≤ 2 ^ 63 := by
  rw [resize_slice_to_pow2] at h
  cases hq : checked_next_power_of_two l.length with
  | none => rw [hq] at h; exact absurd h (by simp)
  | some q =>
    rw [hq] at h
    cases hl : l.getLast? with
    | none => rw [hl] at h; exact absurd h (by simp)
    | some last =>
      rw [hl] at h
      have h1 : l ≠ [] := by
        intro hnil
        rw [hnil] at hl
        simp at hl
      obtain ⟨hnp, hcap⟩ := checked_next_power_of_two_sound hq
      have hr : r = l ++ List.replicate (q - l.length) (l.getLast h1) := by
        have : l.getLast? = some (l.getLast h1) := List.getLast?_eq_getLast l h1
        rw [this] at hl
        simp only [Option.some.injEq] at hl
        simp only [Option.some.injEq, Except.ok.injEq] at h
        rw [← h, hl]
      have hrl : r.length = q := by
        have hle2 := hnp.2.1
        rw [hr]
        simp only [List.length_append, List.length_replicate]
        omega
      exact ⟨q, h1, rfl, hr, by rw [hrl]; exact hnp, hrl, hcap⟩

/-- C1: for every non-empty slice whose next power of two is representable,
`resize_slice_to_pow2` returns `Ok` with a vector whose length is the least
power of two at least the input length, whose first `n` entries are the
input and whose remaining entries all repeat the input's last element; an
input of power-of-two length is returned unchanged. -/
theorem resize_slice_to_pow2_pads {α : Type} (l : List α)
    (h1 : l ≠ []) (h2 : l.length ≤ 2 ^ 63) :
    ∃ r, resize_slice_to_pow2 l = some (Except.ok r) ∧
      IsNextPow2 l.length r.length ∧
      r.take l.length = l ∧
      r.drop l.length = List.replicate (r.length - l.length) (l.getLast h1) ∧
      ((∃ k, l.length = 2 ^ k) → r = l) := by
  obtain ⟨q, hq⟩ := checked_next_power_of_two_some h2
  obtain ⟨hnp, hcap⟩ := checked_next_power_of_two_sound hq
  refine ⟨l ++ List.replicate (q - l.length) (l.getLast h1), resize_ok l h1 hq, ?_, ?_, ?_, ?_⟩
  · have hlen : (l ++ List.replicate (q - l.length) (l.getLast h1)).length = q := by
      simp only [List.length_append, List.length_replicate]
      have := hnp.2.1
      omega
    rw [hlen]
    exact hnp
  · simp
  · have hlen : (l ++ List.replicate (q - l.length) (l.getLast h1)).length = q := by
      simp only [List.length_append, List.length_replicate]
      have := hnp.2.1
      omega
    rw [hlen]
    simp
  · rintro ⟨k, hk⟩
    have hle2 : q ≤ l.length := hnp.2.2 l.length k hk le_rfl
    have heq : q = l.length := le_antisymm hle2 hnp.2.1
    rw [heq, Nat.sub_self, List.replicate_zero, List.append_nil]

/-- C9: `resize_slice_to_pow2` returns the padding-overflow error
`Error::ResizeError` exactly when no power of two at least the input length
is representable in `usize`, i.e. exactly when the length exceeds `2 ^ 63`
on a 64-bit platform; every smaller non-empty input is returned `Ok`. -/
theorem resize_slice_to_pow2_overflow_iff {α : Type} (l : List α)
    (h1 : l ≠ []) (h2 : l.length < 2 ^ 64) :
    (resize_slice_to_pow2 l = some (Except.error RangeProofError.ResizeError) ↔
      2 ^ 63 < l.length) ∧
    (l.length ≤ 2 ^ 63 → ∃ r, resize_slice_to_pow2 l = some (Except.ok r)) := by
  rcases Nat.lt_or_ge (2 ^ 63) l.length with hgt | hle
  · have hnone := checked_next_power_of_two_none hgt
    have herr : resize_slice_to_pow2 l = some (Except.error RangeProofError.ResizeError) := by
      rw [resize_slice_to_pow2, hnone]
    exact ⟨⟨fun _ => hgt, fun _ => herr⟩, fun hc => absurd hc (by omega)⟩
  · obtain ⟨q, hq⟩ := checked_next_power_of_two_some hle
    have hok := resize_ok l h1 hq
    constructor
    · constructor
      · intro hcontra
        rw [hok] at hcontra
        exact absurd hcontra (by simp)
      · intro hcontra
        omega
    · intro _
      exact ⟨_, hok⟩

/-- Modelled from the spec: a Pedersen commitment (curve25519-dalek, missing
from the sources) to `value` with blinding factor `blinding`, idealized as
the perfectly binding pair of its openings: two commitments are equal
exactly when both the value and the blinding agree. -/
def pedersen_commit (value blinding : Nat) : Nat × Nat :=
  (value, blinding)

/-- Modelled from the spec: a bulletproofs aggregated `RangeProof` (external
crate, missing from the sources), idealized as recording the padded
(value, blinding) openings it attests to. -/
structure RangeProof where
  pairs : List (Nat × Nat)
deriving DecidableEq, Repr

/-- Modelled from the spec: `RangeProof::prove_multiple_with_rng` of the
bulletproofs crate (missing from the sources).  It requires equally many
values and blindings and a supported power-of-two batch width, and on
success produces one Pedersen commitment per (padded) value together with
a proof bound to exactly those commitments. -/
def prove_multiple (values blindings : List Nat) :
    Except RangeProofError (RangeProof × List (Nat × Nat)) :=
  if values.length = blindings.length ∧ values.length ≠ 0 ∧
      checked_next_power_of_two values.length = some values.length
  then Except.ok (⟨values.zip blindings⟩,
    (values.zip blindings).map (fun p => pedersen_commit p.1 p.2))
  else Except.error RangeProofError.ProvingError

/-- Modelled from the spec: `RangeProof::verify_multiple_with_rng` of the
bulletproofs crate (missing from the sources): it "checks the proof attests
exactly that padded commitment vector", over a supported power-of-two
aggregation width. -/
def verify_multiple (proof : RangeProof) (commitments : List (Nat × Nat)) :
    Except RangeProofError Unit :=
  if commitments = proof.pairs.map (fun p => pedersen_commit p.1 p.2) ∧
      commitments.length ≠ 0 ∧
      checked_next_power_of_two commitments.length = some commitments.length
  then Except.ok ()
  else Except.error RangeProofError.VerificationError

/-- `generate_range_proofs` from `range_proofs/mod.rs`: pad the values and
the blindings each to the next power of two with its own last element, then
prove.  `none` models the panic on an empty slice; `Blinding::as_ref` is
the identity on the modelled scalars. -/
def generate_range_proofs (values serials : List Nat) :
    Option (Except RangeProofError (RangeProof × List (Nat × Nat))) :=
  match resize_slice_to_pow2 values with
  | none => none
  | some (Except.error e) => some (Except.error e)
  | some (Except.ok values_padded) =>
    match resize_slice_to_pow2 serials with
    | none => none
    | some (Except.error e) => some (Except.error e)
    | some (Except.ok serials_padded) =>
      some (prove_multiple values_padded serials_padded)

/-- `check_range_proofs` from `range_proofs/mod.rs`: pad the commitment list
to the next power of two with its own last element, then verify.  `none`
models the panic on an empty slice. -/
def check_range_proofs (range_proof : RangeProof)
    (commitments : List (Nat × Nat)) :
    Option (Except RangeProofError Unit) :=
  match resize_slice_to_pow2 commitments with
  | none => none
  | some (Except.error e) => some (Except.error e)
  | some (Except.ok resized_commitments) =>
    some (verify_multiple range_proof resized_commitments)

theorem zip_replicate_eq {α β : Type} (n : Nat) (a : α) (b : β) :
    (List.replicate n a).zip (List.replicate n b) = List.replicate n (a, b) := by
  induction n with
  | zero => rfl
  | succ m ih => simp [List.replicate_succ, ih]

theorem generate_ok_shape {values serials : List Nat} {pr : RangeProof}
    {cs : List (Nat × Nat)}
    (h : generate_range_proofs values serials = some (Except.ok (pr, cs))) :
    ∃ vp sp, resize_slice_to_pow2 values = some (Except.ok vp) ∧
      resize_slice_to_pow2 serials = some (Except.ok sp) ∧
      prove_multiple vp sp = Except.ok (pr, cs) := by
  rw [generate_range_proofs] at h
  cases hv : resize_slice_to_pow2 values with
  | none => rw [hv] at h; simp at h
  | some ev =>
    rw [hv] at h
    cases ev with
    | error e => simp at h
    | ok vp =>
      cases hs : resize_slice_to_pow2 serials with
      | none => rw [hs] at h; simp at h
      | some es =>
        rw [hs] at h
        cases es with
        | error e => simp at h
        | ok sp => exact ⟨vp, sp, rfl, rfl, by simpa using h⟩

theorem prove_multiple_ok_shape {values blindings : List Nat}
    {pr : RangeProof} {cs : List (Nat × Nat)}
    (h : prove_multiple values blindings = Except.ok (pr, cs)) :
    values.length = blindings.length ∧ values.length ≠ 0 ∧
    checked_next_power_of_two values.length = some values.length ∧
    pr = ⟨values.zip blindings⟩ ∧
    cs = (values.zip blindings).map (fun p => pedersen_commit p.1 p.2) := by
  rw [prove_multiple] at h
  split_ifs at h with hc
  simp only [Except.ok.injEq, Prod.mk.injEq] at h
  exact ⟨hc.1, hc.2.1, hc.2.2, h.1.symm, h.2.symm⟩

theorem resize_of_pow2_length {α : Type} {l : List α} {k : Nat}
    (hk : k ≤ 63) (hl : l.length = 2 ^ k) :
    resize_slice_to_pow2 l = some (Except.ok l) := by
  have hpos : 0 < 2 ^ k := Nat.pow_pos (by omega)
  have h1 : l ≠ [] := by
    intro hnil
    rw [hnil] at hl
    simp only [List.length_nil] at hl
    omega
  have hq : checked_next_power_of_two l.length = some l.length := by
    rw [hl]
    exact checked_next_power_of_two_of_pow2 hk
  have hres := resize_ok l h1 hq
  rw [Nat.sub_self, List.replicate_zero, List.append_nil] at hres
  exact hres

/-- C5: `generate_range_proofs` on equal-length non-empty values and
blindings pads each sequence to the same power-of-two length with its own
last element, keeping position `i` of the padded values paired with
position `i` of the padded blindings (every padding slot holds the original
last value with the original last blinding), and returns one commitment per
padded value: the commitment list has length equal to the next power of two
at least `values.length`, of which only the first `values.length` come from
the caller's inputs. -/
theorem generate_range_proofs_spec (values serials : List Nat)
    (h1 : values ≠ []) (hlen : values.length = serials.length)
    (h2 : values.length ≤ 2 ^ 63) :
    ∃ q lv ls range_proof commitments,
      values.getLast? = some lv ∧
      serials.getLast? = some ls ∧
      IsNextPow2 values.length q ∧
      resize_slice_to_pow2 values =
        some (Except.ok (values ++ List.replicate (q - values.length) lv)) ∧
      resize_slice_to_pow2 serials =
        some (Except.ok (serials ++ List.replicate (q - serials.length) ls)) ∧
      generate_range_proofs values serials =
        some (Except.ok (range_proof, commitments)) ∧
      range_proof.pairs =
        values.zip serials ++ List.replicate (q - values.length) (lv, ls) ∧
      commitments = range_proof.pairs.map (fun p => pedersen_commit p.1 p.2) ∧
      commitments.length = q := by
  have hs1 : serials ≠ [] := by
    intro hnil
    rw [hnil] at hlen
    simp only [List.length_nil] at hlen
    exact h1 (List.eq_nil_of_length_eq_zero hlen)
  obtain ⟨q, hq⟩ := checked_next_power_of_two_some h2
  obtain ⟨hnp, hcap⟩ := checked_next_power_of_two_sound hq
  have hqs : checked_next_power_of_two serials.length = some q := by
    rw [← hlen]
    exact hq
  have hokv := resize_ok values h1 hq
  have hoks := resize_ok serials hs1 hqs
  set lv := values.getLast h1 with hlv
  set ls := serials.getLast hs1 with hls
  have hd : q - serials.length = q - values.length := by rw [hlen]
  -- lengths of the two padded vectors
  have hvpl : (values ++ List.replicate (q - values.length) lv).length = q := by
    have := hnp.2.1
    simp only [List.length_append, List.length_replicate]
    omega
  have hspl : (serials ++ List.replicate (q - serials.length) ls).length = q := by
    have := hnp.2.1
    simp only [List.length_append, List.length_replicate]
    omega
  -- the supported-width condition for the modelled prover
  obtain ⟨k, hk⟩ := hnp.1
  have hk63 : k ≤ 63 := by
    by_contra hc
    push_neg at hc
    have hge : 2 ^ 64 ≤ 2 ^ k := Nat.pow_le_pow_right (by omega) (by omega)
    have hlt : (2 : Nat) ^ 63 < 2 ^ 64 := by norm_num
    omega
  have hprove : prove_multiple (values ++ List.replicate (q - values.length) lv)
      (serials ++ List.replicate (q - serials.length) ls) =
      Except.ok (⟨(values ++ List.replicate (q - values.length) lv).zip
          (serials ++ List.replicate (q - serials.length) ls)⟩,
        ((values ++ List.replicate (q - values.length) lv).zip
          (serials ++ List.replicate (q - serials.length) ls)).map
          (fun p => pedersen_commit p.1 p.2)) := by
    rw [prove_multiple, if_pos]
    refine ⟨by rw [hvpl, hspl], by rw [hvpl]; intro hc; rw [hc] at hk; exact absurd hk.symm (by positivity), ?_⟩
    rw [hvpl, hk]
    exact checked_next_power_of_two_of_pow2 hk63
  have hzip : (values ++ List.replicate (q - values.length) lv).zip
      (serials ++ List.replicate (q - serials.length) ls) =
      values.zip serials ++ List.replicate (q - values.length) (lv, ls) := by
    rw [hd, List.zip_append hlen, zip_replicate_eq]
  refine ⟨q, lv, ls,
    ⟨values.zip serials ++ List.replicate (q - values.length) (lv, ls)⟩,
    (values.zip serials ++ List.replicate (q - values.length) (lv, ls)).map
      (fun p => pedersen_commit p.1 p.2),
    List.getLast?_eq_getLast values h1,
    List.getLast?_eq_getLast serials hs1, hnp, hokv, hoks, ?_, rfl, rfl, ?_⟩
  · simp only [generate_range_proofs, hokv, hoks, hprove, hzip]
  · have hzl : (values.zip serials).length = values.length := by
      rw [List.length_zip, hlen, Nat.min_self]
    have := hnp.2.1
    simp only [List.length_map, List.length_append, List.length_replicate, hzl]
    omega

/-- C6: a range proof produced by `generate_range_proofs` never verifies
against a commitment list of the same length in which at least one
commitment has been replaced by a commitment to a different opening:
`check_range_proofs` returns `VerificationFailure`, never `Ok`. -/
theorem check_range_proofs_rejects_tampering
    (values serials : List Nat) (range_proof : RangeProof)
    (commitments tampered : List (Nat × Nat))
    (hgen : generate_range_proofs values serials =
      some (Except.ok (range_proof, commitments)))
    (hlen : tampered.length = commitments.length)
    (hne : tampered ≠ commitments) :
    check_range_proofs range_proof tampered =
      some (Except.error RangeProofError.VerificationError) := by
  obtain ⟨vp, sp, hv, hs, hp⟩ := generate_ok_shape hgen
  obtain ⟨hlen2, hne0, hpow, hpr, hcs⟩ := prove_multiple_ok_shape hp
  have hcl : commitments.length = vp.length := by
    rw [hcs]
    simp only [List.length_map, List.length_zip, hlen2, Nat.min_self]
  obtain ⟨⟨k, hk⟩, _, _⟩ := (checked_next_power_of_two_sound hpow).1
  have hcap := (checked_next_power_of_two_sound hpow).2
  have hk63 : k ≤ 63 := by
    by_contra hc
    push_neg at hc
    have hge : 2 ^ 64 ≤ 2 ^ k := Nat.pow_le_pow_right (by omega) (by omega)
    have hlt : (2 : Nat) ^ 63 < 2 ^ 64 := by norm_num
    omega
  have hres : resize_slice_to_pow2 tampered = some (Except.ok tampered) :=
    resize_of_pow2_length hk63 (by rw [hlen, hcl, hk])
  have hpairs : range_proof.pairs.map (fun p => pedersen_commit p.1 p.2) =
      commitments := by
    rw [hpr, hcs]
  simp only [check_range_proofs, hres]
  rw [verify_multiple, if_neg]
  rintro ⟨hc1, -, -⟩
  rw [hpairs] at hc1
  exact hne hc1

/-- C8: padding a zero-length slice does not return a padded vector nor a
recoverable `Error`: `resize_slice_to_pow2` (and therefore
`generate_range_proofs` and `check_range_proofs` on an empty input) hits
the out-of-bounds index `slice[slice.len() - 1]` and aborts, modelled as
`none`. -/
theorem empty_batch_aborts :
    resize_slice_to_pow2 ([] : List Nat) = none ∧
    (∀ serials : List Nat, generate_range_proofs [] serials = none) ∧
    (∀ range_proof : RangeProof, check_range_proofs range_proof [] = none) :=
  ⟨rfl, fun _ => rfl, fun _ => rfl⟩

/-- Witness for C1: padding the length-3 slice `[1, 2, 3]`. -/
theorem resize_slice_to_pow2_pads_witness :
    ([1, 2, 3] : List Nat) ≠ [] ∧
    ([1, 2, 3] : List Nat).length ≤ 2 ^ 63 ∧
    ∃ r, resize_slice_to_pow2 ([1, 2, 3] : List Nat) = some (Except.ok r) ∧
      IsNextPow2 ([1, 2, 3] : List Nat).length r.length ∧
      r.take ([1, 2, 3] : List Nat).length = [1, 2, 3] ∧
      r.drop ([1, 2, 3] : List Nat).length =
        List.replicate (r.length - ([1, 2, 3] : List Nat).length)
          (([1, 2, 3] : List Nat).getLast (by decide)) ∧
      ((∃ k, ([1, 2, 3] : List Nat).length = 2 ^ k) → r = [1, 2, 3]) :=
  ⟨by decide, by decide,
    resize_slice_to_pow2_pads ([1, 2, 3] : List Nat) (by decide) (by decide)⟩

/-- Witness for C5: generating over three values and three blindings. -/
theorem generate_range_proofs_spec_witness :
    ([10, 20, 30] : List Nat) ≠ [] ∧
    ([10, 20, 30] : List Nat).length = ([4, 5, 6] : List Nat).length ∧
    ([10, 20, 30] : List Nat).length ≤ 2 ^ 63 ∧
    ∃ q lv ls range_proof commitments,
      ([10, 20, 30] : List Nat).getLast? = some lv ∧
      ([4, 5, 6] : List Nat).getLast? = some ls ∧
      IsNextPow2 ([10, 20, 30] : List Nat).length q ∧
      resize_slice_to_pow2 ([10, 20, 30] : List Nat) =
        some (Except.ok ([10, 20, 30] ++
          List.replicate (q - ([10, 20, 30] : List Nat).length) lv)) ∧
      resize_slice_to_pow2 ([4, 5, 6] : List Nat) =
        some (Except.ok ([4, 5, 6] ++
          List.replicate (q - ([4, 5, 6] : List Nat).length) ls)) ∧
      generate_range_proofs [10, 20, 30] [4, 5, 6] =
        some (Except.ok (range_proof, commitments)) ∧
      range_proof.pairs = ([10, 20, 30] : List Nat).zip [4, 5, 6] ++
        List.replicate (q - ([10, 20, 30] : List Nat).length) (lv, ls) ∧
      commitments = range_proof.pairs.map (fun p => pedersen_commit p.1 p.2) ∧
      commitments.length = q :=
  ⟨by decide, by decide, by decide,
    generate_range_proofs_spec [10, 20, 30] [4, 5, 6]
      (by decide) (by decide) (by decide)⟩

/-- Witness for C6: the proof over value 5 with blinding 7 is rejected
against the tampered commitment list `[(9, 9)]`. -/
theorem check_range_proofs_rejects_tampering_witness :
    generate_range_proofs [5] [7] =
      some (Except.ok (⟨[(5, 7)]⟩, [(5, 7)])) ∧
    ([(9, 9)] : List (Nat × Nat)).length = [(5, 7)].length ∧
    ([(9, 9)] : List (Nat × Nat)) ≠ [(5, 7)] ∧
    check_range_proofs ⟨[(5, 7)]⟩ [(9, 9)] =
      some (Except.error RangeProofError.VerificationError) :=
  ⟨rfl, rfl, by decide,
    check_range_proofs_rejects_tampering [5] [7] ⟨[(5, 7)]⟩ [(5, 7)] [(9, 9)]
      rfl rfl (by decide)⟩

/-- Witness for C9: a length-3 slice is below the overflow bound, so it is
padded `Ok` and is not a `ResizeError`. -/
theorem resize_slice_to_pow2_overflow_iff_witness :
    ([1, 2, 3] : List Nat) ≠ [] ∧
    ([1, 2, 3] : List Nat).length < 2 ^ 64 ∧
    ((resize_slice_to_pow2 ([1, 2, 3] : List Nat) =
        some (Except.error RangeProofError.ResizeError) ↔
      2 ^ 63 < ([1, 2, 3] : List Nat).length) ∧
    (([1, 2, 3] : List Nat).length ≤ 2 ^ 63 →
      ∃ r, resize_slice_to_pow2 ([1, 2, 3] : List Nat) = some (Except.ok r))) :=
  ⟨by decide, by decide,
    resize_slice_to_pow2_overflow_iff ([1, 2, 3] : List Nat)
      (by decide) (by decide)⟩

/-!
Embedding of `mobilecoind/src/conversions.rs`.  The foreign leaf types
(`TxOut`, `KeyImage`, `PublicAddress`) live in crates whose sources are not
available; each is abstracted as a `Nat` payload, and its wire encoding as
an `Option` payload where `none` stands for bytes its (external) decoder
rejects.  `tx.prefix.fee` and `tx.prefix.outputs` are flattened into a
two-field `Tx`.
-/

/-- `mobilecoind_api::ConversionError`: `FeeMismatch` and `IndexOutOfBounds`
are produced by the `TxProposal` decoder in `conversions.rs`; every error of
the external per-field decoders is collapsed into `InvalidContents` (those
decoders never produce `FeeMismatch` or `IndexOutOfBounds`). -/
inductive ConversionError where
  | FeeMismatch
  | IndexOutOfBounds
  | InvalidContents
deriving DecidableEq, Repr

/-- `utxo_store::UnspentTxOut`. -/
structure UnspentTxOut where
  tx_out : Nat
  subaddress_index : Nat
  key_image : Nat
  value : Nat
  attempted_spend_height : Nat
  attempted_spend_tombstone : Nat
deriving DecidableEq, Repr

/-- Wire message `mobilecoind_api::UnspentTxOut`; the embedded `tx_out` and
`key_image` encodings are `none` when malformed. -/
structure UnspentTxOutMsg where
  tx_out : Option Nat
  subaddress_index : Nat
  key_image : Option Nat
  value : Nat
  attempted_spend_height : Nat
  attempted_spend_tombstone : Nat
deriving DecidableEq, Repr

/-- `From<&UnspentTxOut> for mobilecoind_api::UnspentTxOut`. -/
def UnspentTxOut.to_msg (src : UnspentTxOut) : UnspentTxOutMsg :=
  { tx_out := some src.tx_out
    subaddress_index := src.subaddress_index
    key_image := some src.key_image
    value := src.value
    attempted_spend_height := src.attempted_spend_height
    attempted_spend_tombstone := src.attempted_spend_tombstone }

/-- `TryFrom<&mobilecoind_api::UnspentTxOut> for UnspentTxOut`: the embedded
`TxOut::try_from` and `KeyImage::try_from` calls are external decoders,
modelled from the spec as succeeding exactly on well-formed encodings. -/
def UnspentTxOut.try_from (src : UnspentTxOutMsg) :
    Except ConversionError UnspentTxOut :=
  match src.tx_out with
  | none => Except.error ConversionError.InvalidContents
  | some t =>
    match src.key_image with
    | none => Except.error ConversionError.InvalidContents
    | some k =>
      Except.ok
        { tx_out := t
          subaddress_index := src.subaddress_index
          key_image := k
          value := src.value
          attempted_spend_height := src.attempted_spend_height
          attempted_spend_tombstone := src.attempted_spend_tombstone }

/-- `payments::Outlay`. -/
structure Outlay where
  value : Nat
  receiver : Nat
deriving DecidableEq, Repr

/-- Wire message `mobilecoind_api::Outlay`. -/
structure OutlayMsg where
  value : Nat
  receiver : Option Nat
deriving DecidableEq, Repr

/-- `From<&Outlay> for mobilecoind_api::Outlay`. -/
def Outlay.to_msg (src : Outlay) : OutlayMsg :=
  { value := src.value, receiver := some src.receiver }

/-- `TryFrom<&mobilecoind_api::Outlay> for Outlay`: the embedded
`PublicAddress::try_from` is an external decoder, modelled from the spec as
succeeding exactly on well-formed encodings. -/
def Outlay.try_from (src : OutlayMsg) : Except ConversionError Outlay :=
  match src.receiver with
  | none => Except.error ConversionError.InvalidContents
  | some r => Except.ok { value := src.value, receiver := r }

/-- `transaction::tx::Tx`, flattened to the two fields of `tx.prefix` the
proposal conversion reads: `fee` and the output list (each output
abstracted as a `Nat`). -/
structure Tx where
  fee : Nat
  outputs : List Nat
deriving DecidableEq, Repr

/-- Wire message for `Tx`: the raw `fee` field and output list are readable
from the message even when `Tx::try_from` rejects it, so the message keeps
them alongside a well-formedness flag. -/
structure TxMsg where
  fee : Nat
  outputs : List Nat
  wf : Bool
deriving DecidableEq, Repr

/-- `From<&Tx>` wire encoding (external, modelled from the spec as a
faithful field-exact encoding). -/
def Tx.to_msg (src : Tx) : TxMsg :=
  { fee := src.fee, outputs := src.outputs, wf := true }

/-- `Tx::try_from` (external decoder, modelled from the spec): succeeds
exactly on well-formed encodings and preserves the fee and output list. -/
def Tx.try_from (src : TxMsg) : Except ConversionError Tx :=
  if src.wf then Except.ok { fee := src.fee, outputs := src.outputs }
  else Except.error ConversionError.InvalidContents

/-- `payments::TxProposal`.  The `outlay_index_to_tx_out_index` `HashMap` is
represented as its entry list; a `HashMap` value always has pairwise
distinct keys, which theorems assume as an explicit `Nodup` hypothesis
where they rely on it. -/
structure TxProposal where
  utxos : List UnspentTxOut
  outlays : List Outlay
  tx : Tx
  outlay_index_to_tx_out_index : List (Nat × Nat)
deriving DecidableEq, Repr

/-- Wire message `mobilecoind_api::TxProposal` with fields `input_list`,
`outlay_list`, `tx`, `fee` and the `map<uint64, uint64>` field, the latter
as its entry list. -/
structure TxProposalMsg where
  input_list : List UnspentTxOutMsg
  outlay_list : List OutlayMsg
  tx : TxMsg
  fee : Nat
  outlay_index_to_tx_out_index : List (Nat × Nat)
deriving DecidableEq, Repr

/-- `From<&TxProposal> for mobilecoind_api::TxProposal`: note the wire `fee`
field is set from `src.tx.prefix.fee`. -/
def TxProposal.to_msg (src : TxProposal) : TxProposalMsg :=
  { input_list := src.utxos.map UnspentTxOut.to_msg
    outlay_list := src.outlays.map Outlay.to_msg
    tx := src.tx.to_msg
    fee := src.tx.fee
    outlay_index_to_tx_out_index := src.outlay_index_to_tx_out_index }

/-- `iter().map(...).collect::<Result<Vec<_>, _>>()`: decode every element,
stopping on the first error. -/
def try_map {α β : Type} (f : α → Except ConversionError β) :
    List α → Except ConversionError (List β)
  | [] => Except.ok []
  | x :: xs =>
    match f x with
    | Except.error e => Except.error e
    | Except.ok y =>
      match try_map f xs with
      | Except.error e => Except.error e
      | Except.ok ys => Except.ok (y :: ys)

/-- `TryFrom<&mobilecoind_api::TxProposal> for TxProposal`: the fee check,
the three per-field decodes, the `HashMap::from_iter` of the mapping (the
`u64 as usize` casts are lossless on the modelled 64-bit platform, and a
protobuf map iterates each key once, so the entry list carries over), and
the two index bound checks. -/
def TxProposal.try_from (src : TxProposalMsg) :
    Except ConversionError TxProposal :=
  if src.fee ≠ src.tx.fee then Except.error ConversionError.FeeMismatch
  else
    match try_map UnspentTxOut.try_from src.input_list with
    | Except.error e => Except.error e
    | Except.ok utxos =>
      match try_map Outlay.try_from src.outlay_list with
      | Except.error e => Except.error e
      | Except.ok outlays =>
        match Tx.try_from src.tx with
        | Except.error e => Except.error e
        | Except.ok tx =>
          if src.outlay_index_to_tx_out_index.length ≠ outlays.length then
            Except.error ConversionError.IndexOutOfBounds
          else if src.outlay_index_to_tx_out_index.any
              (fun kv => decide (outlays.length ≤ kv.1) ||
                decide (tx.outputs.length ≤ kv.2)) then
            Except.error ConversionError.IndexOutOfBounds
          else
            Except.ok
              { utxos := utxos
                outlays := outlays
                tx := tx
                outlay_index_to_tx_out_index :=
                  src.outlay_index_to_tx_out_index }

theorem unspent_try_from_error {m : UnspentTxOutMsg} {e : ConversionError}
    (h : UnspentTxOut.try_from m = Except.error e) :
    e = ConversionError.InvalidContents := by
  rw [UnspentTxOut.try_from] at h
  cases ht : m.tx_out with
  | none => rw [ht] at h; simpa using h.symm
  | some t =>
    rw [ht] at h
    cases hk : m.key_image with
    | none => rw [hk] at h; simpa using h.symm
    | some k => rw [hk] at h; simp at h

theorem outlay_try_from_error {m : OutlayMsg} {e : ConversionError}
    (h : Outlay.try_from m = Except.error e) :
    e = ConversionError.InvalidContents := by
  rw [Outlay.try_from] at h
  cases hr : m.receiver with
  | none => rw [hr] at h; simpa using h.symm
  | some r => rw [hr] at h; simp at h

theorem tx_try_from_error {m : TxMsg} {e : ConversionError}
    (h : Tx.try_from m = Except.error e) :
    e = ConversionError.InvalidContents := by
  rw [Tx.try_from] at h
  split_ifs at h
  simpa using h.symm

theorem try_map_error {α β : Type} {f : α → Except ConversionError β}
    {l : List α} {e : ConversionError}
    (h : try_map f l = Except.error e) :
    ∃ x ∈ l, f x = Except.error e := by
  induction l with
  | nil => simp [try_map] at h
  | cons x xs ih =>
    rw [try_map] at h
    cases hx : f x with
    | error e2 =>
      rw [hx] at h
      simp only [Except.error.injEq] at h
      exact ⟨x, List.mem_cons_self x xs, by rw [hx, h]⟩
    | ok y =>
      rw [hx] at h
      cases hxs : try_map f xs with
      | error e2 =>
        rw [hxs] at h
        simp only [Except.error.injEq] at h
        obtain ⟨z, hz, hfz⟩ := ih (by rw [hxs, h])
        exact ⟨z, List.mem_cons_of_mem x hz, hfz⟩
      | ok ys => rw [hxs] at h; simp at h

/-- C2: decoding an inbound `TxProposal` message fails with `FeeMismatch`
exactly when the message's declared `fee` field differs from the fee
embedded in its `tx` (`tx.prefix.fee`); no other code path produces
`FeeMismatch`. -/
theorem tx_proposal_fee_mismatch_iff (src : TxProposalMsg) :
    TxProposal.try_from src = Except.error ConversionError.FeeMismatch ↔
      src.fee ≠ src.tx.fee := by
  constructor
  · intro h
    by_contra hc
    rw [TxProposal.try_from, if_neg (fun hcc => hcc hc)] at h
    cases hu : try_map UnspentTxOut.try_from src.input_list with
    | error e =>
      simp only [hu, Except.error.injEq] at h
      subst h
      obtain ⟨x, _, hfx⟩ := try_map_error hu
      exact absurd (unspent_try_from_error hfx) (by decide)
    | ok utxos =>
      simp only [hu] at h
      cases ho : try_map Outlay.try_from src.outlay_list with
      | error e =>
        simp only [ho, Except.error.injEq] at h
        subst h
        obtain ⟨x, _, hfx⟩ := try_map_error ho
        exact absurd (outlay_try_from_error hfx) (by decide)
      | ok outlays =>
        simp only [ho] at h
        cases ht : Tx.try_from src.tx with
        | error e =>
          simp only [ht, Except.error.injEq] at h
          subst h
          exact absurd (tx_try_from_error ht) (by decide)
        | ok tx =>
          simp only [ht] at h
          split_ifs at h <;> simp at h
  · intro h
    rw [TxProposal.try_from, if_pos h]

/-- C3: given that the fee check and the per-field decodes succeed, decoding
fails with `IndexOutOfBounds` exactly when the
`outlay_index_to_tx_out_index` mapping has length different from
`outlays.len()`, or some key is at least `outlays.len()`, or some value is
at least `tx.prefix.outputs.len()`. -/
theorem tx_proposal_index_oob_iff (src : TxProposalMsg)
    (utxos : List UnspentTxOut) (outlays : List Outlay) (tx : Tx)
    (hfee : src.fee = src.tx.fee)
    (hu : try_map UnspentTxOut.try_from src.input_list = Except.ok utxos)
    (ho : try_map Outlay.try_from src.outlay_list = Except.ok outlays)
    (ht : Tx.try_from src.tx = Except.ok tx) :
    TxProposal.try_from src = Except.error ConversionError.IndexOutOfBounds ↔
      (src.outlay_index_to_tx_out_index.length ≠ outlays.length ∨
        ∃ kv ∈ src.outlay_index_to_tx_out_index,
          outlays.length ≤ kv.1 ∨ tx.outputs.length ≤ kv.2) := by
  have hnc : ¬ src.fee ≠ src.tx.fee := fun hcc => hcc hfee
  simp only [TxProposal.try_from, if_neg hnc, hu, ho, ht]
  split_ifs with h1 h2
  · exact ⟨fun _ => Or.inl h1, fun _ => rfl⟩
  · simp only [List.any_eq_true, Bool.or_eq_true, decide_eq_true_eq] at h2
    exact ⟨fun _ => Or.inr h2, fun _ => rfl⟩
  · constructor
    · intro hcon
      simp at hcon
    · rintro (hc | ⟨kv, hkv, hc⟩)
      · exact absurd hc h1
      · refine absurd ?_ h2
        simp only [List.any_eq_true, Bool.or_eq_true, decide_eq_true_eq]
        exact ⟨kv, hkv, hc⟩

theorem try_from_ok_shape {src : TxProposalMsg} {p : TxProposal}
    (h : TxProposal.try_from src = Except.ok p) :
    src.fee = src.tx.fee ∧
    p.outlay_index_to_tx_out_index = src.outlay_index_to_tx_out_index ∧
    src.outlay_index_to_tx_out_index.length = p.outlays.length ∧
    ∀ kv ∈ src.outlay_index_to_tx_out_index,
      kv.1 < p.outlays.length ∧ kv.2 < p.tx.outputs.length := by
  rw [TxProposal.try_from] at h
  split_ifs at h with hf
  cases hu : try_map UnspentTxOut.try_from src.input_list with
  | error e => simp only [hu] at h; exact absurd h (by simp)
  | ok utxos =>
    simp only [hu] at h
    cases ho : try_map Outlay.try_from src.outlay_list with
    | error e => simp only [ho] at h; exact absurd h (by simp)
    | ok outlays =>
      simp only [ho] at h
      cases ht : Tx.try_from src.tx with
      | error e => simp only [ht] at h; exact absurd h (by simp)
      | ok tx =>
        simp only [ht] at h
        split_ifs at h with h1 h2
        simp only [Except.ok.injEq] at h
        subst h
        simp only [Bool.not_eq_true, List.any_eq_false] at h2
        refine ⟨by omega, rfl, ?_, ?_⟩
        · show src.outlay_index_to_tx_out_index.length = outlays.length
          omega
        · show ∀ kv ∈ src.outlay_index_to_tx_out_index,
            kv.1 < outlays.length ∧ kv.2 < tx.outputs.length
          intro kv hkv
          have hk2 := h2 kv hkv
          simp only [Bool.or_eq_false_iff, decide_eq_false_iff_not,
            not_le] at hk2
          exact hk2

/-- C7: whenever decoding a `TxProposal` message succeeds, the decoded
mapping contains exactly one entry for each outlay index below
`outlays.len()` and no other entries — its key multiset counts every
`i < outlays.len()` once and everything else zero (extra tx outputs, such
as change, have no entry).  The `Nodup` hypothesis is the `HashMap`
representation invariant of the wire map. -/
theorem tx_proposal_decode_key_set (src : TxProposalMsg) (p : TxProposal)
    (hnd : (src.outlay_index_to_tx_out_index.map Prod.fst).Nodup)
    (hok : TxProposal.try_from src = Except.ok p) :
    ∀ i, (p.outlay_index_to_tx_out_index.map Prod.fst).count i =
      if i < p.outlays.length then 1 else 0 := by
  obtain ⟨-, hmap, hlen, hbounds⟩ := try_from_ok_shape hok
  rw [hmap]
  set keys := src.outlay_index_to_tx_out_index.map Prod.fst with hkeys
  set n := p.outlays.length with hn
  have hkl : keys.length = n := by
    rw [hkeys, List.length_map]
    omega
  have hmem_lt : ∀ a ∈ keys, a < n := by
    intro a ha
    rw [hkeys] at ha
    obtain ⟨kv, hkv, hfst⟩ := List.mem_map.mp ha
    rw [← hfst]
    exact (hbounds kv hkv).1
  have hsub : keys.toFinset ⊆ Finset.range n := by
    intro a ha
    rw [List.mem_toFinset] at ha
    exact Finset.mem_range.mpr (hmem_lt a ha)
  have hcard : keys.toFinset.card = n := by
    rw [List.toFinset_card_of_nodup hnd, hkl]
  have hfin : keys.toFinset = Finset.range n :=
    Finset.eq_of_subset_of_card_le hsub (by rw [hcard, Finset.card_range])
  intro i
  by_cases hi : i < n
  · rw [if_pos hi]
    have hmem : i ∈ keys := by
      rw [← List.mem_toFinset, hfin]
      exact Finset.mem_range.mpr hi
    exact List.count_eq_one_of_mem hnd hmem
  · rw [if_neg hi]
    refine List.count_eq_zero.mpr ?_
    intro hmem
    exact hi (hmem_lt i hmem)

theorem unspent_round_trip (u : UnspentTxOut) :
    UnspentTxOut.try_from u.to_msg = Except.ok u := rfl

theorem outlay_round_trip (o : Outlay) :
    Outlay.try_from o.to_msg = Except.ok o := rfl

theorem try_map_to_msg {α β : Type} (f : β → Except ConversionError α)
    (g : α → β) (hfg : ∀ x, f (g x) = Except.ok x) (l : List α) :
    try_map f (l.map g) = Except.ok l := by
  induction l with
  | nil => rfl
  | cons x xs ih => simp [try_map, hfg, ih]

/-- C4 (amended): `UnspentTxOut` and `Outlay` round-trip unconditionally;
a `TxProposal` round-trips through its wire message provided it satisfies
its own mapping invariants (mapping length equals `outlays.len()`, every
key below `outlays.len()`, every value below `tx.prefix.outputs.len()`),
which the decoder re-checks. -/
theorem wire_round_trip (u : UnspentTxOut) (o : Outlay) (p : TxProposal)
    (hlen : p.outlay_index_to_tx_out_index.length = p.outlays.length)
    (hbounds : ∀ kv ∈ p.outlay_index_to_tx_out_index,
      kv.1 < p.outlays.length ∧ kv.2 < p.tx.outputs.length) :
    UnspentTxOut.try_from u.to_msg = Except.ok u ∧
    Outlay.try_from o.to_msg = Except.ok o ∧
    TxProposal.try_from p.to_msg = Except.ok p := by
  refine ⟨rfl, rfl, ?_⟩
  have h1 : try_map UnspentTxOut.try_from (p.utxos.map UnspentTxOut.to_msg) =
      Except.ok p.utxos :=
    try_map_to_msg UnspentTxOut.try_from UnspentTxOut.to_msg
      (fun x => rfl) p.utxos
  have h2 : try_map Outlay.try_from (p.outlays.map Outlay.to_msg) =
      Except.ok p.outlays :=
    try_map_to_msg Outlay.try_from Outlay.to_msg (fun x => rfl) p.outlays
  have h6 : p.outlay_index_to_tx_out_index.any
      (fun kv => decide (p.outlays.length ≤ kv.1) ||
        decide (p.tx.outputs.length ≤ kv.2)) = false := by
    rw [List.any_eq_false]
    intro kv hkv
    simp only [Bool.or_eq_true, decide_eq_true_eq, not_or, not_le]
    exact hbounds kv hkv
  simp only [TxProposal.try_from, TxProposal.to_msg, Tx.to_msg, Tx.try_from,
    h1, h2, h6, hlen, if_true, ne_eq, not_true_eq_false, if_false,
    Bool.false_eq_true]


/-- C4 counterexample: round-tripping is not unconditional.  A `TxProposal`
value whose mapping has an entry although it has no outlays encodes to a
message whose decoding fails with `IndexOutOfBounds` instead of returning
the original value. -/
theorem wire_round_trip_fails :
    TxProposal.try_from
      (TxProposal.to_msg
        { utxos := [], outlays := [], tx := { fee := 0, outputs := [] },
          outlay_index_to_tx_out_index := [(0, 0)] }) =
      Except.error ConversionError.IndexOutOfBounds := rfl

/-- A sample unspent output used by concrete witnesses. -/
def sample_utxo : UnspentTxOut :=
  { tx_out := 1, subaddress_index := 2, key_image := 3, value := 4,
    attempted_spend_height := 5, attempted_spend_tombstone := 6 }

/-- A sample outlay used by concrete witnesses. -/
def sample_outlay : Outlay :=
  { value := 7, receiver := 8 }

/-- A sample well-formed proposal used by concrete witnesses. -/
def sample_proposal : TxProposal :=
  { utxos := [sample_utxo], outlays := [sample_outlay],
    tx := { fee := 9, outputs := [10] },
    outlay_index_to_tx_out_index := [(0, 0)] }

/-- A sample message whose mapping key equals `outlays.len()`. -/
def oob_msg : TxProposalMsg :=
  { input_list := [], outlay_list := [{ value := 5, receiver := some 1 }],
    tx := { fee := 2, outputs := [3], wf := true }, fee := 2,
    outlay_index_to_tx_out_index := [(1, 0)] }

/-- A sample well-formed message used by concrete witnesses. -/
def ok_msg : TxProposalMsg :=
  { input_list := [], outlay_list := [{ value := 5, receiver := some 1 }],
    tx := { fee := 2, outputs := [3], wf := true }, fee := 2,
    outlay_index_to_tx_out_index := [(0, 0)] }

/-- The proposal `ok_msg` decodes to. -/
def ok_proposal : TxProposal :=
  { utxos := [], outlays := [{ value := 5, receiver := 1 }],
    tx := { fee := 2, outputs := [3] },
    outlay_index_to_tx_out_index := [(0, 0)] }

/-- Witness for C4 (amended): a one-input, one-outlay proposal with the
single mapping entry `(0, 0)` round-trips. -/
theorem wire_round_trip_witness :
    sample_proposal.outlay_index_to_tx_out_index.length =
      sample_proposal.outlays.length ∧
    (∀ kv ∈ sample_proposal.outlay_index_to_tx_out_index,
      kv.1 < sample_proposal.outlays.length ∧
      kv.2 < sample_proposal.tx.outputs.length) ∧
    (UnspentTxOut.try_from sample_utxo.to_msg = Except.ok sample_utxo ∧
    Outlay.try_from sample_outlay.to_msg = Except.ok sample_outlay ∧
    TxProposal.try_from sample_proposal.to_msg = Except.ok sample_proposal) :=
  ⟨rfl, by decide,
    wire_round_trip sample_utxo sample_outlay sample_proposal rfl (by decide)⟩

/-- Witness for C3: a message whose mapping contains the key `1`, which
equals `outlays.len()`, decodes to `IndexOutOfBounds`. -/
theorem tx_proposal_index_oob_iff_witness :
    oob_msg.fee = oob_msg.tx.fee ∧
    try_map UnspentTxOut.try_from oob_msg.input_list = Except.ok [] ∧
    try_map Outlay.try_from oob_msg.outlay_list =
      Except.ok [{ value := 5, receiver := 1 }] ∧
    Tx.try_from oob_msg.tx = Except.ok { fee := 2, outputs := [3] } ∧
    (TxProposal.try_from oob_msg =
        Except.error ConversionError.IndexOutOfBounds ↔
      (oob_msg.outlay_index_to_tx_out_index.length ≠
          ([{ value := 5, receiver := 1 }] : List Outlay).length ∨
        ∃ kv ∈ oob_msg.outlay_index_to_tx_out_index,
          ([{ value := 5, receiver := 1 }] : List Outlay).length ≤ kv.1 ∨
          ({ fee := 2, outputs := [3] } : Tx).outputs.length ≤ kv.2)) :=
  ⟨rfl, rfl, rfl, rfl,
    tx_proposal_index_oob_iff oob_msg [] [{ value := 5, receiver := 1 }]
      { fee := 2, outputs := [3] } rfl rfl rfl rfl⟩

/-- Witness for C7: a successfully decoded one-outlay proposal has key
count 1 at index 0. -/
theorem tx_proposal_decode_key_set_witness :
    (ok_msg.outlay_index_to_tx_out_index.map Prod.fst).Nodup ∧
    TxProposal.try_from ok_msg = Except.ok ok_proposal ∧
    (ok_proposal.outlay_index_to_tx_out_index.map Prod.fst).count 0 =
      (if 0 < ok_proposal.outlays.length then 1 else 0) :=
  ⟨by decide, rfl,
    tx_proposal_decode_key_set ok_msg ok_proposal (by decide) rfl 0⟩

/-- C10: the decoder performs no distinctness check on the mapped output
indices: a well-formed message in which the two outlay indices 0 and 1 both
map to tx output index 0 (mapping length equals `outlays.len()`, every key
below `outlays.len()`, every value below `tx.prefix.outputs.len()`) decodes
successfully instead of returning an error. -/
theorem decode_allows_duplicate_output_indices :
    TxProposal.try_from
      { input_list := [],
        outlay_list := [{ value := 1, receiver := some 10 },
          { value := 2, receiver := some 20 }],
        tx := { fee := 3, outputs := [7], wf := true },
        fee := 3,
        outlay_index_to_tx_out_index := [(0, 0), (1, 0)] } =
      Except.ok
        { utxos := [],
          outlays := [{ value := 1, receiver := 10 },
            { value := 2, receiver := 20 }],
          tx := { fee := 3, outputs := [7] },
          outlay_index_to_tx_out_index := [(0, 0), (1, 0)] } := rfl

/-- A message whose declared fee differs by one unit from the fee embedded
in its tx. -/
def mismatch_msg : TxProposalMsg :=
  { input_list := [], outlay_list := [],
    tx := { fee := 4, outputs := [], wf := true }, fee := 5,
    outlay_index_to_tx_out_index := [] }

/-- Witness for C2: a message whose declared fee `5` differs by one unit
from the embedded `tx.prefix.fee = 4` is rejected with `FeeMismatch`. -/
theorem tx_proposal_fee_mismatch_iff_witness :
    TxProposal.try_from mismatch_msg =
        Except.error ConversionError.FeeMismatch ↔
      mismatch_msg.fee ≠ mismatch_msg.tx.fee :=
  tx_proposal_fee_mismatch_iff mismatch_msg
